import Mathlib

/-!
Verification of the relational-algebra evaluator and the imperative control
layer of the cozo query core, against its natural-language specification.

The development shallowly embeds the relevant parts of
`cozo-core/src/query/ra.rs` and `cozo-core/src/runtime/imperative.rs`:

* values (`DataValue`) and tuples are plain inductive data;
* lazy tuple streams (`TupleIter`) become `List (Except Err Tuple)`: the
  elements a pull-based consumer would see, in production order, with
  mid-stream failures appearing as `Except.error` elements (spec section 4.1:
  an erroring stream yields the error element and is treated as terminated);
* storage scans become functions over a `List Tuple` modelling the
  key-ordered contents of a stored or in-memory relation;
* compiled expression bytecode becomes an abstract evaluation function
  (`Tuple → Except Err Bool` for predicates, `Tuple → Except Err DataValue`
  for value expressions), since `data/expr.rs` is outside the given sources;
* source spans carried by nodes and errors are dropped: they only decorate
  diagnostics and never influence control flow.

Rust `Vec` indexing panics when out of bounds; the embedding uses `List.getD`
with `DataValue.Null` as the default and theorems carry in-bounds hypotheses
where the distinction could matter.
-/

/-- The `DataValue` from `data/value.rs` (outside the sources), restricted to the
tags the spec's data model names (section 3): `Null` is the least value,
ordinary scalars (booleans, integers, strings), `List`, and `Bot` as the
greatest sentinel. -/
inductive DataValue where
  | Null : DataValue
  | B : Bool → DataValue
  | I : Int → DataValue
  | S : String → DataValue
  | L : List DataValue → DataValue
  | Bot : DataValue

mutual
/-- Boolean equality on `DataValue`, by structural comparison. -/
def DataValue.beq : DataValue → DataValue → Bool
  | .Null, .Null => true
  | .B a, .B b => a == b
  | .I a, .I b => a == b
  | .S a, .S b => a == b
  | .L a, .L b => DataValue.beqList a b
  | .Bot, .Bot => true
  | _, _ => false

/-- Boolean equality on lists of `DataValue`. -/
def DataValue.beqList : List DataValue → List DataValue → Bool
  | [], [] => true
  | x :: xs, y :: ys => DataValue.beq x y && DataValue.beqList xs ys
  | _, _ => false
end

mutual
theorem DataValue.beq_iff : (a b : DataValue) → (DataValue.beq a b = true ↔ a = b)
  | .Null, b => by cases b <;> simp [DataValue.beq]
  | .B _, b => by cases b <;> simp [DataValue.beq]
  | .I _, b => by cases b <;> simp [DataValue.beq]
  | .S _, b => by cases b <;> simp [DataValue.beq]
  | .Bot, b => by cases b <;> simp [DataValue.beq]
  | .L xs, .Null => by simp [DataValue.beq]
  | .L xs, .B _ => by simp [DataValue.beq]
  | .L xs, .I _ => by simp [DataValue.beq]
  | .L xs, .S _ => by simp [DataValue.beq]
  | .L xs, .Bot => by simp [DataValue.beq]
  | .L xs, .L ys => by simp [DataValue.beq, DataValue.beqList_iff xs ys]

theorem DataValue.beqList_iff : (a b : List DataValue) → (DataValue.beqList a b = true ↔ a = b)
  | [], b => by cases b <;> simp [DataValue.beqList]
  | x :: xs, [] => by simp [DataValue.beqList]
  | x :: xs, y :: ys => by
      simp [DataValue.beqList, DataValue.beq_iff x y, DataValue.beqList_iff xs ys]
end

instance : DecidableEq DataValue := fun a b =>
  decidable_of_iff (DataValue.beq a b = true) (DataValue.beq_iff a b)

/-- A positional tuple of values (`data/tuple.rs`). -/
abbrev Tuple := List DataValue

/-- The error kinds the embedded fragments can surface (spec section 7);
diagnostics payloads are reduced to the data the code stores in them. -/
inductive Err where
  | badSpreadUnification : Err
  | predicateTypeError : DataValue → Err
  | invalidTimeTravelScanning : String → Err
  | other : String → Err
deriving DecidableEq

/-- Rank of a `DataValue` tag, ordering `Null` least and `Bot` greatest. -/
def DataValue.rank : DataValue → Nat
  | .Null => 0
  | .B _ => 1
  | .I _ => 2
  | .S _ => 3
  | .L _ => 4
  | .Bot => 5

mutual
/-- The total order on values (spec section 3), compared by tag rank and
then componentwise; lists compare lexicographically. -/
def DataValue.ltB : DataValue → DataValue → Bool
  | .B a, .B b => !a && b
  | .I a, .I b => decide (a < b)
  | .S a, .S b => decide (a < b)
  | .L a, .L b => DataValue.listLtB a b
  | a, b => decide (DataValue.rank a < DataValue.rank b)

/-- Lexicographic order on tuples, induced by the value order. -/
def DataValue.listLtB : List DataValue → List DataValue → Bool
  | [], [] => false
  | [], _ :: _ => true
  | _ :: _, [] => false
  | x :: xs, y :: ys => DataValue.ltB x y || (DataValue.beq x y && DataValue.listLtB xs ys)
end

/-- The `eliminate_from_tuple` (ra.rs:74-89): remove the components whose
positions are in the elimination-index set; a no-op when the set is empty. -/
def eliminate_from_tuple (ret : Tuple) (eliminate_indices : List Nat) : Tuple :=
  if eliminate_indices = [] then ret
  else (ret.enum.filterMap fun p => if p.1 ∈ eliminate_indices then none else some p.2)

/-- Projection of a tuple at a list of positions (the ubiquitous
`indices.iter().map(|i| tuple[*i].clone())` pattern of ra.rs). -/
def proj (idxs : List Nat) (t : Tuple) : Tuple :=
  idxs.map fun i => t.getD i DataValue.Null

/-- Insertion into an ordered duplicate-free list, modelling
`BTreeSet::insert` for tuples. -/
def btreeInsertTuple (x : Tuple) : List Tuple → List Tuple
  | [] => [x]
  | y :: ys =>
    if DataValue.listLtB x y then x :: y :: ys
    else if x = y then y :: ys
    else y :: btreeInsertTuple x ys

theorem mem_btreeInsertTuple {a x : Tuple} : (l : List Tuple) →
    (a ∈ btreeInsertTuple x l ↔ a = x ∨ a ∈ l)
  | [] => by simp [btreeInsertTuple]
  | y :: ys => by
    simp only [btreeInsertTuple]
    by_cases h1 : DataValue.listLtB x y
    · simp [h1]
    · by_cases h2 : x = y
      · subst h2; simp [h1]
      · simp [h1, h2, mem_btreeInsertTuple ys]; tauto

/-- A multimap from right-key projections to the rows carrying them,
modelling the `BTreeMap<Vec<&DataValue>, Vec<&Vec<DataValue>>>` built by
`InlineFixedRA::join` (ra.rs:729-740): entries keep the per-key rows in
insertion order, and only lookup is used afterwards. -/
def multimapInsert (key : Tuple) (row : Tuple) : List (Tuple × List Tuple) → List (Tuple × List Tuple)
  | [] => [(key, [row])]
  | (k, rows) :: rest =>
    if k = key then (k, rows ++ [row]) :: rest
    else (k, rows) :: multimapInsert key row rest

/-- Lookup in the multimap (`BTreeMap::get`). -/
def multimapGet (key : Tuple) : List (Tuple × List Tuple) → Option (List Tuple)
  | [] => none
  | (k, rows) :: rest => if k = key then some rows else multimapGet key rest

/-- The `InlineFixedRA::join` (ra.rs:702-759): the specialized join used by
`InnerJoin` when the right side is an inline-fixed relation.  Three cases on
the fixed data: empty, exactly one row (compare the joined positions and
concatenate, applying elimination), and many rows (group the rows into a
multimap by their right-key projection and emit every cross-product for each
matching left tuple; note that this branch extends the left tuple without
calling `eliminate_from_tuple`). -/
def InlineFixedRA.join (data : List Tuple)
    (left_join_indices right_join_indices : List Nat)
    (eliminate_indices : List Nat)
    (left_iter : List (Except Err Tuple)) : List (Except Err Tuple) :=
  if data.isEmpty then []
  else if data.length = 1 then
    let d := data.headD []
    let right_join_values := proj right_join_indices d
    left_iter.filterMap fun x =>
      match x with
      | .error e => some (.error e)
      | .ok tuple =>
        let left_join_values := proj left_join_indices tuple
        if left_join_values = right_join_values then
          some (.ok (eliminate_from_tuple (tuple ++ d) eliminate_indices))
        else none
  else
    let right_mapping :=
      data.foldl (fun m d => multimapInsert (proj right_join_indices d) d m) []
    left_iter.flatMap fun x =>
      match x with
      | .error e => [.error e]
      | .ok tuple =>
        match multimapGet (proj left_join_indices tuple) right_mapping with
        | none => []
        | some rows => rows.map fun right_values => .ok (tuple ++ right_values)

/-- C1: for an InnerJoin whose right side is an InlineFixed relation, the
claim says every emitted tuple has the elimination-set columns removed in all
three cases of the specialized join.  Evaluating the embedded
`InlineFixedRA::join` at a concrete input shows the empty-data and one-row
cases do apply `eliminate_from_tuple`, but the many-rows multimap path
(ra.rs:728-757) emits the raw concatenation: with elimination index 0 and
left tuple `[5]`, the two-row case still emits tuples starting with `5`,
while elimination would have removed it (as the one-row case does). -/
theorem c1_inline_fixed_join_elimination :
    InlineFixedRA.join [] [] [] [0] [.ok [DataValue.I 5]] = []
    ∧ InlineFixedRA.join [[DataValue.I 1]] [] [] [0] [.ok [DataValue.I 5]]
        = [.ok [DataValue.I 1]]
    ∧ InlineFixedRA.join [[DataValue.I 1], [DataValue.I 2]] [] [] [0] [.ok [DataValue.I 5]]
        = [.ok [DataValue.I 5, DataValue.I 1], .ok [DataValue.I 5, DataValue.I 2]]
    ∧ eliminate_from_tuple [DataValue.I 5, DataValue.I 1] [0] = [DataValue.I 1] :=
  ⟨rfl, rfl, rfl, rfl⟩

/-- Modelled from the spec: the expression tree of `data/expr.rs` (outside
the sources) as the RA layer uses it here — an expression is a conjunction
of subexpressions or an atom carrying its free variables
(`Expr::bindings`), and `Expr::to_conjunction` splits a top-level
conjunction into its conjuncts. -/
inductive Expr where
  | atom : List String → Expr
  | conj : List Expr → Expr

/-- Free variables of an expression (`Expr::bindings`). -/
def Expr.bindingsList : Expr → List String
  | .atom bs => bs
  | .conj args => args.attach.flatMap fun x => Expr.bindingsList x.1
decreasing_by
  have h := List.sizeOf_lt_of_mem x.2
  simp only [Expr.conj.sizeOf_spec]
  omega

/-- Top-level conjunct splitting (`Expr::to_conjunction`). -/
def Expr.to_conjunction : Expr → List Expr
  | .conj args => args
  | e => [e]

/-- The physical scan chosen for one left tuple by a prefix join: a bounded
range scan with the computed bounds, or the unbounded prefix scan. -/
inductive ScanStrategy where
  | bounded : List DataValue → List DataValue → ScanStrategy
  | unbounded : ScanStrategy

/-- The `match compute_bounds(..) { Ok(b) => b, _ => (vec![], vec![]) }`
pattern of the prefix joins; `compute_bounds` itself lives in
`data/expr.rs` (outside the sources) and is passed in abstractly. -/
def boundsFromFilters
    (computeBounds : List Expr → List String → Except Err (List DataValue × List DataValue))
    (filters : List Expr) (other_bindings : List String) :
    List DataValue × List DataValue :=
  match computeBounds filters other_bindings with
  | .ok b => b
  | .error _ => ([], [])

/-- The non-triviality test on computed bounds: some lower-bound entry is
not `Null`, or some upper-bound entry is not `Bot`. -/
def boundsNontrivial (l_bound u_bound : List DataValue) : Bool :=
  !(l_bound.all (· == DataValue.Null)) || !(u_bound.all (· == DataValue.Bot))

/-- The per-left-tuple scan-strategy selection shared verbatim by
`StoredRA::prefix_join` (ra.rs:1062-1118), `TempStoreRA::prefix_join`
(ra.rs:1410-1489) and `StoredWithValidityRA::prefix_join` (ra.rs:871-934):
for each left tuple, when the `skip_range_check` latch is off and the filter
list is non-empty, run bounds analysis; non-trivial bounds select the
bounded scan (leaving the latch off), otherwise the latch is set and the
unbounded prefix scan is used.  The actual scans are abstracted into the
chosen `ScanStrategy`; the second component counts `compute_bounds`
evaluations. -/
def prefix_join_strategies
    (filters : List Expr)
    (computeBounds : List Expr → List String → Except Err (List DataValue × List DataValue))
    (other_bindings : List String) :
    Bool → List Tuple → List ScanStrategy × Nat
  | _, [] => ([], 0)
  | skip_range_check, _tuple :: rest =>
    if !skip_range_check && !filters.isEmpty then
      let b := boundsFromFilters computeBounds filters other_bindings
      if boundsNontrivial b.1 b.2 then
        let r := prefix_join_strategies filters computeBounds other_bindings skip_range_check rest
        (.bounded b.1 b.2 :: r.1, r.2 + 1)
      else
        let r := prefix_join_strategies filters computeBounds other_bindings true rest
        (.unbounded :: r.1, r.2 + 1)
    else
      let r := prefix_join_strategies filters computeBounds other_bindings true rest
      (.unbounded :: r.1, r.2)

theorem prefix_join_strategies_latched
    (filters : List Expr)
    (computeBounds : List Expr → List String → Except Err (List DataValue × List DataValue))
    (ob : List String) : (ts : List Tuple) →
    prefix_join_strategies filters computeBounds ob true ts
      = (ts.map fun _ => ScanStrategy.unbounded, 0)
  | [] => by simp [prefix_join_strategies]
  | _t :: rest => by
    simp [prefix_join_strategies, prefix_join_strategies_latched filters computeBounds ob rest]

/-- C2 (counterexample): with a non-empty filter list whose computed bounds
are non-trivial, `compute_bounds` runs for every left tuple, not only the
first: on two left tuples the analysis is evaluated twice, refuting the
claim that it is performed only while processing the first left tuple. -/
theorem c2_counterexample :
    ¬((prefix_join_strategies [Expr.atom []]
        (fun _ _ => .ok ([DataValue.I 0], [DataValue.Bot])) []
        false [[], []]).2 ≤ 1) := by
  decide

/-- C2 (amended): the `skip_range_check` latch is set only when a left tuple
falls through to the unbounded prefix scan.  Since `compute_bounds` depends
only on the node's filters and bindings, the behaviour over a whole left
stream is: with no filters, no bounds analysis ever runs and every tuple
uses the unbounded scan; with filters and non-trivial bounds, the latch
never engages, bounds are recomputed for every left tuple, and every tuple
uses the bounded scan; with filters and trivial bounds, only the first left
tuple runs the analysis and every tuple uses the unbounded scan. -/
theorem c2_latch_characterization
    (filters : List Expr)
    (computeBounds : List Expr → List String → Except Err (List DataValue × List DataValue))
    (ob : List String) (ts : List Tuple) :
    (filters.isEmpty = true →
      prefix_join_strategies filters computeBounds ob false ts
        = (ts.map fun _ => ScanStrategy.unbounded, 0))
    ∧ (filters.isEmpty = false →
        let b := boundsFromFilters computeBounds filters ob
        (boundsNontrivial b.1 b.2 = true →
          prefix_join_strategies filters computeBounds ob false ts
            = (ts.map fun _ => ScanStrategy.bounded b.1 b.2, ts.length))
        ∧ (boundsNontrivial b.1 b.2 = false →
          prefix_join_strategies filters computeBounds ob false ts
            = (ts.map fun _ => ScanStrategy.unbounded, min 1 ts.length))) := by
  constructor
  · intro he
    cases ts with
    | nil => simp [prefix_join_strategies]
    | cons t rest =>
      simp [prefix_join_strategies, he,
        prefix_join_strategies_latched filters computeBounds ob rest]
  · intro he
    constructor
    · intro hb
      induction ts with
      | nil => simp [prefix_join_strategies]
      | cons t rest ih => simp [prefix_join_strategies, he, hb, ih]
    · intro hb
      cases ts with
      | nil => simp [prefix_join_strategies]
      | cons t rest =>
        simp [prefix_join_strategies, he, hb,
          prefix_join_strategies_latched filters computeBounds ob rest]

/-- Witness for C2's amended theorem at a concrete input: one filter,
bounds `([0], [Bot])` (non-trivial), two left tuples — both use the bounded
scan and the analysis runs twice. -/
theorem c2_latch_characterization_witness :
    prefix_join_strategies [Expr.atom []]
        (fun _ _ => .ok ([DataValue.I 0], [DataValue.Bot])) [] false [[], []]
      = (([[], []] : List Tuple).map fun _ =>
            ScanStrategy.bounded [DataValue.I 0] [DataValue.Bot],
         ([[], []] : List Tuple).length) :=
  ((c2_latch_characterization [Expr.atom []]
      (fun _ _ => .ok ([DataValue.I 0], [DataValue.Bot])) [] [[], []]).2 rfl).1 rfl

/-- The `join_is_prefix` (ra.rs:1238-1243): the right join indices, sorted,
are exactly `0..len` (the name is suffixed to keep it a single token). -/
def join_is_prefix_fn (right_join_indices : List Nat) : Bool :=
  (right_join_indices.mergeSort (fun a b => a ≤ b)) == List.range right_join_indices.length

/-- The prefix-index construction of the `neg_join`s (ra.rs:1134-1142 and
ra.rs:1301-1309): enumerate the right join indices, sort by index value,
take while the sorted values stay contiguous from 0, and map back to the
left join indices. -/
def neg_join_prefix_indices (left_join_indices right_join_indices : List Nat) : List Nat :=
  let right_invert_indices := right_join_indices.enum.mergeSort (fun a b => a.2 ≤ b.2)
  (right_invert_indices.enum.takeWhile fun q => q.1 == q.2.2).map
    fun q => left_join_indices.getD q.2.1 0

/-- The `scan_prefix` over a stored relation and `prefix_iter` over an epoch
store: the rows of the key-ordered storage that start with the prefix (a
contiguous run in key order, rendered as a filter). -/
def scan_prefix_model (storage : List Tuple) (pfx : Tuple) : List Tuple :=
  storage.filter fun t => pfx.isPrefixOf t

/-- The inner per-row check of the `neg_join` prefix path: every paired
left/right join position holds equal values. -/
def join_vals_match (left_join_indices right_join_indices : List Nat) (t found : Tuple) : Bool :=
  (left_join_indices.zip right_join_indices).all fun p =>
    t.getD p.1 DataValue.Null == found.getD p.2 DataValue.Null

/-- The `StoredRA::neg_join` (ra.rs:1126-1226): when the right join indices form
a prefix, drop a left tuple as soon as a row in its prefix range matches on
all join positions; otherwise materialize the set of right join-column
projections and reject left tuples whose projection is present.  Surviving
tuples are emitted with the elimination indices removed. -/
def StoredRA.neg_join (storage : List Tuple)
    (left_join_indices right_join_indices : List Nat)
    (eliminate_indices : List Nat)
    (left_iter : List (Except Err Tuple)) : List (Except Err Tuple) :=
  if join_is_prefix_fn right_join_indices then
    left_iter.filterMap fun x =>
      match x with
      | .error e => some (.error e)
      | .ok tuple =>
        let pfx := proj (neg_join_prefix_indices left_join_indices right_join_indices) tuple
        if (scan_prefix_model storage pfx).any
            (fun found => join_vals_match left_join_indices right_join_indices tuple found) then
          none
        else some (.ok (eliminate_from_tuple tuple eliminate_indices))
  else
    let right_join_vals :=
      storage.foldl (fun s tu => btreeInsertTuple (proj right_join_indices tu) s) []
    left_iter.filterMap fun x =>
      match x with
      | .error e => some (.error e)
      | .ok tuple =>
        if right_join_vals.contains (proj left_join_indices tuple) then none
        else some (.ok (eliminate_from_tuple tuple eliminate_indices))

/-- The `TempStoreRA::neg_join` (ra.rs:1292-1389): identical control flow to
`StoredRA::neg_join`, reading the epoch store instead of the transaction. -/
def TempStoreRA.neg_join (storage : List Tuple)
    (left_join_indices right_join_indices : List Nat)
    (eliminate_indices : List Nat)
    (left_iter : List (Except Err Tuple)) : List (Except Err Tuple) :=
  if join_is_prefix_fn right_join_indices then
    left_iter.filterMap fun x =>
      match x with
      | .error e => some (.error e)
      | .ok tuple =>
        let pfx := proj (neg_join_prefix_indices left_join_indices right_join_indices) tuple
        if (scan_prefix_model storage pfx).any
            (fun found => join_vals_match left_join_indices right_join_indices tuple found) then
          none
        else some (.ok (eliminate_from_tuple tuple eliminate_indices))
  else
    let right_join_vals :=
      storage.foldl (fun s tu => btreeInsertTuple (proj right_join_indices tu) s) []
    left_iter.filterMap fun x =>
      match x with
      | .error e => some (.error e)
      | .ok tuple =>
        if right_join_vals.contains (proj left_join_indices tuple) then none
        else some (.ok (eliminate_from_tuple tuple eliminate_indices))

/-- The anti-join contract in the spec's words (sections 4.9 and 8.3):
keep exactly the left tuples whose left-key projection equals no right
tuple's right-key projection, once per occurrence, eliminating columns
after the decision; stream errors pass through. -/
def neg_join_semantics (storage : List Tuple)
    (left_join_indices right_join_indices : List Nat)
    (eliminate_indices : List Nat)
    (left_iter : List (Except Err Tuple)) : List (Except Err Tuple) :=
  left_iter.filterMap fun x =>
    match x with
    | .error e => some (.error e)
    | .ok tuple =>
      if storage.any (fun r => proj left_join_indices tuple == proj right_join_indices r) then
        none
      else some (.ok (eliminate_from_tuple tuple eliminate_indices))

theorem sorted_enum_snd_eq (rjis : List Nat)
    (h1 : join_is_prefix_fn rjis = true) :
    (rjis.enum.mergeSort (fun a b => a.2 ≤ b.2)).map Prod.snd = List.range rjis.length := by
  have hperm : ((rjis.enum.mergeSort (fun a b => a.2 ≤ b.2)).map Prod.snd).Perm rjis := by
    have := (List.mergeSort_perm rjis.enum (fun a b => a.2 ≤ b.2)).map Prod.snd
    rw [List.enum_map_snd] at this
    exact this
  have hsorted : List.Sorted (· ≤ ·)
      ((rjis.enum.mergeSort (fun a b => a.2 ≤ b.2)).map Prod.snd) := by
    have hp := @List.sorted_mergeSort (Nat × Nat)
      (fun a b => decide (a.2 ≤ b.2))
      (fun a b c hab hbc => by
        simp only [decide_eq_true_eq] at *
        omega)
      (fun a b => by
        simp only [Bool.or_eq_true, decide_eq_true_eq]
        omega)
      rjis.enum
    rw [List.Sorted, List.pairwise_map]
    exact hp.imp fun h => by simpa using h
  have hperm2 : ((rjis.enum.mergeSort (fun a b => a.2 ≤ b.2)).map Prod.snd).Perm
      (rjis.mergeSort (fun a b => a ≤ b)) :=
    hperm.trans (List.mergeSort_perm rjis (fun a b => a ≤ b)).symm
  have hsorted2 : List.Sorted (· ≤ ·) (rjis.mergeSort (fun a b => a ≤ b)) := by
    have hp := @List.sorted_mergeSort Nat
      (fun a b => decide (a ≤ b))
      (fun a b c hab hbc => by
        simp only [decide_eq_true_eq] at *
        omega)
      (fun a b => by
        simp only [Bool.or_eq_true, decide_eq_true_eq]
        omega)
      rjis
    exact hp.imp fun h => by simpa using h
  have heq := List.eq_of_perm_of_sorted hperm2 hsorted hsorted2
  rw [heq]
  exact eq_of_beq h1

theorem length_mergeSort_enum (rjis : List Nat) :
    (rjis.enum.mergeSort (fun a b => a.2 ≤ b.2)).length = rjis.length := by
  rw [(List.mergeSort_perm rjis.enum (fun a b => a.2 ≤ b.2)).length_eq, List.enum_length]

theorem neg_join_prefix_indices_eq (ljis rjis : List Nat)
    (h1 : join_is_prefix_fn rjis = true) :
    neg_join_prefix_indices ljis rjis
      = (rjis.enum.mergeSort (fun a b => a.2 ≤ b.2)).map fun p => ljis.getD p.1 0 := by
  unfold neg_join_prefix_indices
  dsimp only
  have hsnd := sorted_enum_snd_eq rjis h1
  have hlen := length_mergeSort_enum rjis
  have htake : ((rjis.enum.mergeSort (fun a b => a.2 ≤ b.2)).enum.takeWhile
      fun q => q.1 == q.2.2) = (rjis.enum.mergeSort (fun a b => a.2 ≤ b.2)).enum := by
    rw [List.takeWhile_eq_self_iff]
    intro q hq
    rw [List.mem_enum_iff_getElem?] at hq
    have hq1 : ((rjis.enum.mergeSort (fun a b => a.2 ≤ b.2)).map Prod.snd)[q.1]?
        = some q.2.2 := by
      rw [List.getElem?_map, hq]
      rfl
    have hb : q.1 < rjis.length := by
      rcases List.getElem?_eq_some.mp hq with ⟨hlt, _⟩
      omega
    rw [hsnd, List.getElem?_range hb] at hq1
    simp at hq1
    simp [hq1]
  rw [htake]
  have : ((rjis.enum.mergeSort (fun a b => a.2 ≤ b.2)).enum.map
      fun q => ljis.getD q.2.1 0)
      = ((rjis.enum.mergeSort (fun a b => a.2 ≤ b.2)).enum.map Prod.snd).map
          fun p => ljis.getD p.1 0 := by
    rw [List.map_map]
    rfl
  rw [this, List.enum_map_snd]

theorem match_imp_isPrefixOf (ljis rjis : List Nat) (t r : Tuple)
    (h1 : join_is_prefix_fn rjis = true) (hlen : ljis.length = rjis.length)
    (hr : rjis.length ≤ r.length)
    (hm : join_vals_match ljis rjis t r = true) :
    (proj (neg_join_prefix_indices ljis rjis) t).isPrefixOf r = true := by
  have hIE := neg_join_prefix_indices_eq ljis rjis h1
  have hlinv : (rjis.enum.mergeSort (fun a b => a.2 ≤ b.2)).length = rjis.length :=
    length_mergeSort_enum rjis
  have hsnd := sorted_enum_snd_eq rjis h1
  rw [List.isPrefixOf_iff_prefix, List.prefix_iff_eq_take, hIE]
  simp only [proj, List.length_map, hlinv]
  apply List.ext_getElem
  · simp only [List.length_map, List.length_take, hlinv]
    omega
  · intro j hj1 hj2
    simp only [List.length_map, hlinv] at hj1
    have hjinv : j < (rjis.enum.mergeSort (fun a b => a.2 ≤ b.2)).length := by omega
    have hsnd_j : ((rjis.enum.mergeSort (fun a b => a.2 ≤ b.2))[j]).2 = j := by
      have hc := congrArg (fun l => l[j]?) hsnd
      simp only [List.getElem?_map, List.getElem?_eq_getElem hjinv,
        List.getElem?_range hj1, Option.map_some'] at hc
      exact Option.some.inj hc
    have hmem : (rjis.enum.mergeSort (fun a b => a.2 ≤ b.2))[j] ∈ rjis.enum := by
      have hm0 : (rjis.enum.mergeSort (fun a b => a.2 ≤ b.2))[j]
          ∈ rjis.enum.mergeSort (fun a b => a.2 ≤ b.2) := List.getElem_mem hjinv
      exact ((List.mergeSort_perm rjis.enum _).mem_iff).mp hm0
    rw [List.mem_enum_iff_getElem?, hsnd_j] at hmem
    rcases List.getElem?_eq_some.mp hmem with ⟨hs, hsval⟩
    have hsl : ((rjis.enum.mergeSort (fun a b => a.2 ≤ b.2))[j]).1 < ljis.length := by
      omega
    have hz : ((rjis.enum.mergeSort (fun a b => a.2 ≤ b.2))[j]).1
        < (ljis.zip rjis).length := by
      rw [List.length_zip]
      omega
    have hall := List.all_eq_true.mp hm _ (List.getElem_mem hz)
    rw [List.getElem_zip] at hall
    have heq := eq_of_beq hall
    dsimp only at heq
    rw [hsval] at heq
    have hjr : j < r.length := by omega
    simp only [List.getElem_map, List.getElem_take]
    have hgl : ljis.getD ((rjis.enum.mergeSort (fun a b => a.2 ≤ b.2))[j]).1 0
        = ljis[((rjis.enum.mergeSort (fun a b => a.2 ≤ b.2))[j]).1] := by
      rw [List.getD_eq_getElem?_getD, List.getElem?_eq_getElem hsl]
      rfl
    rw [hgl, heq]
    rw [List.getD_eq_getElem?_getD, List.getElem?_eq_getElem hjr]
    rfl

theorem join_vals_match_iff (t r : Tuple) : (ljis rjis : List Nat) →
    ljis.length = rjis.length →
    (join_vals_match ljis rjis t r = true ↔ proj ljis t = proj rjis r)
  | [], [], _ => by simp [join_vals_match, proj]
  | [], _ :: _, h => by simp at h
  | _ :: _, [], h => by simp at h
  | a :: ljis', b :: rjis', h => by
    have ih := join_vals_match_iff t r ljis' rjis' (by simpa using h)
    simp only [join_vals_match, List.zip_cons_cons, List.all_cons, Bool.and_eq_true,
      beq_iff_eq, proj, List.map_cons, List.cons.injEq]
    exact and_congr Iff.rfl ih

theorem neg_join_scan_cond_eq (storage : List Tuple) (ljis rjis : List Nat) (t : Tuple)
    (h1 : join_is_prefix_fn rjis = true) (hlen : ljis.length = rjis.length)
    (hstore : ∀ r ∈ storage, rjis.length ≤ r.length) :
    (scan_prefix_model storage (proj (neg_join_prefix_indices ljis rjis) t)).any
        (fun found => join_vals_match ljis rjis t found)
      = storage.any (fun r => proj ljis t == proj rjis r) := by
  rw [scan_prefix_model, List.any_filter]
  rw [Bool.eq_iff_iff, List.any_eq_true, List.any_eq_true]
  constructor
  · rintro ⟨r, hrs, hcond⟩
    rw [Bool.and_eq_true] at hcond
    refine ⟨r, hrs, ?_⟩
    rw [beq_iff_eq]
    exact (join_vals_match_iff t r ljis rjis hlen).mp hcond.2
  · rintro ⟨r, hrs, hcond⟩
    rw [beq_iff_eq] at hcond
    have hmatch := (join_vals_match_iff t r ljis rjis hlen).mpr hcond
    refine ⟨r, hrs, ?_⟩
    rw [Bool.and_eq_true]
    exact ⟨match_imp_isPrefixOf ljis rjis t r h1 hlen (hstore r hrs) hmatch, hmatch⟩

theorem mem_neg_join_vals_fold (rjis : List Nat) (a : Tuple) : (storage acc : List Tuple) →
    (a ∈ storage.foldl (fun s tu => btreeInsertTuple (proj rjis tu) s) acc
      ↔ a ∈ acc ∨ ∃ r ∈ storage, a = proj rjis r)
  | [], acc => by simp
  | tu :: rest, acc => by
    rw [List.foldl_cons,
      mem_neg_join_vals_fold rjis a rest (btreeInsertTuple (proj rjis tu) acc),
      mem_btreeInsertTuple]
    simp only [List.mem_cons]
    constructor
    · rintro (⟨h | h⟩ | ⟨r, hr, he⟩)
      · exact Or.inr ⟨tu, Or.inl rfl, h⟩
      · exact Or.inl h
      · exact Or.inr ⟨r, Or.inr hr, he⟩
    · rintro (h | ⟨r, hr | hr, he⟩)
      · exact Or.inl (Or.inr h)
      · exact Or.inl (Or.inl (hr ▸ he))
      · exact Or.inr ⟨r, hr, he⟩

theorem neg_join_mat_cond_eq (storage : List Tuple) (ljis rjis : List Nat) (t : Tuple) :
    (storage.foldl (fun s tu => btreeInsertTuple (proj rjis tu) s) []).contains
        (proj ljis t)
      = storage.any (fun r => proj ljis t == proj rjis r) := by
  rw [Bool.eq_iff_iff, List.any_eq_true]
  rw [List.contains, List.elem_iff, mem_neg_join_vals_fold]
  simp only [List.not_mem_nil, false_or, beq_iff_eq]

/-- C3: on both the prefix path and the materialized-set path, the
`neg_join` of a Stored or TempStore right side emits exactly the left
tuples whose left-key projection equals no right tuple's right-key
projection — once per occurrence in the left stream, with elimination
applied after the decision and errors passed through — i.e. both embedded
implementations agree with the anti-join contract `neg_join_semantics`. -/
theorem c3_neg_join_anti_join (storage : List Tuple) (ljis rjis elim : List Nat)
    (left_iter : List (Except Err Tuple))
    (hlen : ljis.length = rjis.length)
    (hstore : ∀ r ∈ storage, rjis.length ≤ r.length) :
    StoredRA.neg_join storage ljis rjis elim left_iter
        = neg_join_semantics storage ljis rjis elim left_iter
    ∧ TempStoreRA.neg_join storage ljis rjis elim left_iter
        = neg_join_semantics storage ljis rjis elim left_iter := by
  have hcore : StoredRA.neg_join storage ljis rjis elim left_iter
      = neg_join_semantics storage ljis rjis elim left_iter := by
    unfold StoredRA.neg_join neg_join_semantics
    by_cases hp : join_is_prefix_fn rjis = true
    · rw [if_pos hp]
      induction left_iter with
      | nil => rfl
      | cons x rest ih =>
        cases x with
        | error e => simp only [List.filterMap_cons, ih]
        | ok t =>
          rw [List.filterMap_cons, List.filterMap_cons, ih]
          congr 1
          dsimp only
          rw [neg_join_scan_cond_eq storage ljis rjis t hp hlen hstore]
    · rw [if_neg hp]
      induction left_iter with
      | nil => rfl
      | cons x rest ih =>
        cases x with
        | error e => simp only [List.filterMap_cons, ih]
        | ok t =>
          rw [List.filterMap_cons, List.filterMap_cons, ih]
          congr 1
          dsimp only
          rw [neg_join_mat_cond_eq storage ljis rjis t]
  exact ⟨hcore, hcore⟩

/-- Witness for C3 at the spec's S3 scenario: left `{1, 2, 3}`, right
`{2}`, joined on the single column; both paths keep `{1, 3}`. -/
theorem c3_neg_join_anti_join_witness :
    StoredRA.neg_join [[DataValue.I 2]] [0] [0] []
        [.ok [DataValue.I 1], .ok [DataValue.I 2], .ok [DataValue.I 3]]
      = neg_join_semantics [[DataValue.I 2]] [0] [0] []
        [.ok [DataValue.I 1], .ok [DataValue.I 2], .ok [DataValue.I 3]]
    ∧ TempStoreRA.neg_join [[DataValue.I 2]] [0] [0] []
        [.ok [DataValue.I 1], .ok [DataValue.I 2], .ok [DataValue.I 3]]
      = neg_join_semantics [[DataValue.I 2]] [0] [0] []
        [.ok [DataValue.I 1], .ok [DataValue.I 2], .ok [DataValue.I 3]] :=
  c3_neg_join_anti_join [[DataValue.I 2]] [0] [0] []
    [.ok [DataValue.I 1], .ok [DataValue.I 2], .ok [DataValue.I 3]]
    rfl (by decide)

/-- Column type (`data/relation.rs`, outside the sources): only the
`Validity` tag matters to the embedded code; all others are collapsed
into an indexed `OtherCT`. -/
inductive ColType where
  | Validity : ColType
  | OtherCT : Nat → ColType
deriving DecidableEq

/-- The `NullableColType` (`data/relation.rs`): a column type with nullability. -/
structure NullableColType where
  coltype : ColType
  nullable : Bool
deriving DecidableEq

/-- A key/value column of a stored relation; only its typing is used here. -/
structure ColumnDef where
  typing : NullableColType
deriving DecidableEq

/-- The metadata of a stored relation: key columns and non-key columns. -/
structure StoredRelationMetadata where
  keys : List ColumnDef
  non_keys : List ColumnDef
deriving DecidableEq

/-- The `RelationHandle` (`runtime/relation.rs`, outside the sources): the
opaque handle to a persistent relation, reduced to name and metadata. -/
structure RelationHandle where
  name : String
  metadata : StoredRelationMetadata
deriving DecidableEq

/-- The `RelAlgebra` node tree (ra.rs:31-41), with each node's struct
inlined into its constructor.  Field order follows the Rust structs:
`Fixed bindings data to_eliminate`; `TempStore bindings storage_key
filters`; `Stored bindings storage filters`; `StoredWithValidity bindings
storage filters valid_at`; `Join left right left_keys right_keys
to_eliminate`; `NegJoin` likewise; `Reorder relation new_order`;
`Filter parent filters to_eliminate`; `Unification parent binding expr
is_multi to_eliminate`.  Source spans and the compiled bytecode caches
(`filters_bytecodes`, `expr_bytecode`) are omitted: they never affect the
construction logic verified here. -/
inductive RelAlgebra where
  | Fixed : List String → List Tuple → List String → RelAlgebra
  | TempStore : List String → Nat → List Expr → RelAlgebra
  | Stored : List String → RelationHandle → List Expr → RelAlgebra
  | StoredWithValidity : List String → RelationHandle → List Expr → Int → RelAlgebra
  | Join : RelAlgebra → RelAlgebra → List String → List String → List String → RelAlgebra
  | NegJoin : RelAlgebra → RelAlgebra → List String → List String → List String → RelAlgebra
  | Reorder : RelAlgebra → List String → RelAlgebra
  | Filter : RelAlgebra → List Expr → List String → RelAlgebra
  | Unification : RelAlgebra → String → Expr → Bool → List String → RelAlgebra

/-- The `eliminate_set` (ra.rs:1562-1574): the nodes that own an elimination
set; leaf scans and Reorder do not. -/
def RelAlgebra.eliminate_set : RelAlgebra → Option (List String)
  | .Fixed _ _ e => some e
  | .TempStore _ _ _ => none
  | .Stored _ _ _ => none
  | .StoredWithValidity _ _ _ _ => none
  | .Join _ _ _ _ e => some e
  | .NegJoin _ _ _ _ e => some e
  | .Reorder _ _ => none
  | .Filter _ _ e => some e
  | .Unification _ _ _ _ e => some e

mutual
/-- The `bindings_before_eliminate` (ra.rs:1587-1603). -/
def RelAlgebra.bindings_before_eliminate : RelAlgebra → List String
  | .Fixed bindings _ _ => bindings
  | .TempStore bindings _ _ => bindings
  | .Stored bindings _ _ => bindings
  | .StoredWithValidity bindings _ _ _ => bindings
  | .Join l r _ _ _ =>
      l.bindings_after_eliminate ++ r.bindings_after_eliminate
  | .NegJoin l _ _ _ _ => l.bindings_after_eliminate
  | .Reorder _ new_order => new_order
  | .Filter parent _ _ => parent.bindings_after_eliminate
  | .Unification parent binding _ _ _ =>
      parent.bindings_after_eliminate ++ [binding]
termination_by t => (sizeOf t, 0)

/-- The `bindings_after_eliminate` (ra.rs:1576-1585): the pre-elimination
bindings with the node's elimination set removed. -/
def RelAlgebra.bindings_after_eliminate (t : RelAlgebra) : List String :=
  match t.eliminate_set with
  | some to_eliminate =>
      t.bindings_before_eliminate.filter fun kw => !to_eliminate.contains kw
  | none => t.bindings_before_eliminate
termination_by (sizeOf t, 1)
end

/-- The number of Join nodes in a tree; `RelAlgebra::filter` preserves it,
which powers the termination of the recursive conjunct pushdown. -/
def RelAlgebra.joinCount : RelAlgebra → Nat
  | .Join l r _ _ _ => l.joinCount + r.joinCount + 1
  | .NegJoin l r _ _ _ => l.joinCount + r.joinCount + 1
  | .Reorder p _ => p.joinCount
  | .Filter p _ _ => p.joinCount
  | .Unification p _ _ _ _ => p.joinCount
  | _ => 0

mutual
/-- The `RelAlgebra::filter` (ra.rs:435-563), with the invariant that filtering
never changes the number of Join nodes carried in the result's subtype (it
only adds Filter nodes or extends filter lists).  Fixed, Reorder, NegJoin
and Unification parents get wrapped in a fresh Filter node; an existing
Filter node has the predicate appended to its list; the three scan nodes
absorb the predicate into their own filter list; a Join splits the
predicate into conjuncts and pushes each into the left side, the right
side, or a residual list (`RelAlgebra.pushS`). -/
def RelAlgebra.filterS (t : RelAlgebra) (f : Expr) :
    {u : RelAlgebra // u.joinCount = t.joinCount} :=
  match t with
  | .Fixed b d e => ⟨.Filter (.Fixed b d e) [f] [], rfl⟩
  | .Reorder p o => ⟨.Filter (.Reorder p o) [f] [], rfl⟩
  | .NegJoin l r lk rk e => ⟨.Filter (.NegJoin l r lk rk e) [f] [], rfl⟩
  | .Unification p b x m e => ⟨.Filter (.Unification p b x m e) [f] [], rfl⟩
  | .Filter parent pred elim => ⟨.Filter parent (pred ++ [f]) elim, rfl⟩
  | .TempStore b k fs => ⟨.TempStore b k (fs ++ [f]), rfl⟩
  | .Stored b s fs => ⟨.Stored b s (fs ++ [f]), rfl⟩
  | .StoredWithValidity b s fs v => ⟨.StoredWithValidity b s (fs ++ [f]) v, rfl⟩
  | .Join l r lk rk elim =>
    let res := RelAlgebra.pushS (l.joinCount + r.joinCount) l r rfl
      l.bindings_before_eliminate r.bindings_before_eliminate lk rk elim
      f.to_conjunction []
    ⟨res.val, by rw [res.prop]; rfl⟩
termination_by (t.joinCount, 1, 0)

/-- The conjunct-classification loop of `RelAlgebra::filter`'s Join case
(ra.rs:534-560): each conjunct whose free variables are a subset of the
left pre-elimination bindings filters into the (evolving) left child; else,
if a subset of the right bindings, into the right child; otherwise it is
appended to `remaining`.  At the end the Join is rebuilt and a residual
Filter node is added exactly when `remaining` is non-empty. -/
def RelAlgebra.pushS (n : Nat) (l r : RelAlgebra)
    (hn : l.joinCount + r.joinCount = n)
    (left_bindings right_bindings : List String)
    (lk rk elim : List String)
    (conjs remaining : List Expr) : {u : RelAlgebra // u.joinCount = n + 1} :=
  match conjs with
  | [] =>
    let joined := RelAlgebra.Join l r lk rk elim
    if remaining.isEmpty then
      ⟨joined, by simp [RelAlgebra.joinCount, joined, ← hn]⟩
    else
      ⟨.Filter joined remaining [], by simp [RelAlgebra.joinCount, joined, ← hn]⟩
  | c :: rest =>
    if c.bindingsList.all (fun s => left_bindings.contains s) then
      let l' := RelAlgebra.filterS l c
      RelAlgebra.pushS n l'.val r (by rw [l'.prop]; exact hn)
        left_bindings right_bindings lk rk elim rest remaining
    else if c.bindingsList.all (fun s => right_bindings.contains s) then
      let r' := RelAlgebra.filterS r c
      RelAlgebra.pushS n l r'.val (by rw [r'.prop]; exact hn)
        left_bindings right_bindings lk rk elim rest remaining
    else
      RelAlgebra.pushS n l r hn
        left_bindings right_bindings lk rk elim rest (remaining ++ [c])
termination_by (n + 1, 0, conjs.length)
end

/-- The `RelAlgebra::filter` as the planner calls it: the rebuilt node. -/
def RelAlgebra.filter (t : RelAlgebra) (f : Expr) : RelAlgebra :=
  (RelAlgebra.filterS t f).val

theorem pushS_spec (lb rb : List String) (lk rk elim : List String) :
    (conjs : List Expr) → ∀ (n : Nat) (l r : RelAlgebra)
      (hn : l.joinCount + r.joinCount = n) (remaining : List Expr),
    (RelAlgebra.pushS n l r hn lb rb lk rk elim conjs remaining).val
      = (let lefts := conjs.filter fun c =>
            c.bindingsList.all fun s => lb.contains s
         let rights := conjs.filter fun c =>
            !(c.bindingsList.all fun s => lb.contains s)
              && (c.bindingsList.all fun s => rb.contains s)
         let rem := remaining ++ (conjs.filter fun c =>
            !(c.bindingsList.all fun s => lb.contains s)
              && !(c.bindingsList.all fun s => rb.contains s))
         let joined := RelAlgebra.Join (lefts.foldl RelAlgebra.filter l)
            (rights.foldl RelAlgebra.filter r) lk rk elim
         if rem.isEmpty then joined else .Filter joined rem [])
  | [] => by
    intro n l r hn remaining
    by_cases hr : remaining.isEmpty = true <;>
      simp [RelAlgebra.pushS, hr]
  | c :: rest => by
    intro n l r hn remaining
    by_cases h1 : (c.bindingsList.all fun s => lb.contains s) = true
    · have e1 : List.filter (fun c => c.bindingsList.all fun s => lb.contains s) (c :: rest)
          = c :: List.filter (fun c => c.bindingsList.all fun s => lb.contains s) rest := by
        rw [List.filter_cons, if_pos h1]
      have e2 : List.filter (fun c =>
            !(c.bindingsList.all fun s => lb.contains s)
              && (c.bindingsList.all fun s => rb.contains s)) (c :: rest)
          = List.filter (fun c =>
            !(c.bindingsList.all fun s => lb.contains s)
              && (c.bindingsList.all fun s => rb.contains s)) rest := by
        rw [List.filter_cons, if_neg (by rw [h1]; simp)]
      have e3 : List.filter (fun c =>
            !(c.bindingsList.all fun s => lb.contains s)
              && !(c.bindingsList.all fun s => rb.contains s)) (c :: rest)
          = List.filter (fun c =>
            !(c.bindingsList.all fun s => lb.contains s)
              && !(c.bindingsList.all fun s => rb.contains s)) rest := by
        rw [List.filter_cons, if_neg (by rw [h1]; simp)]
      rw [RelAlgebra.pushS, if_pos h1, pushS_spec lb rb lk rk elim rest, e1, e2, e3]
      rfl
    · rw [Bool.not_eq_true] at h1
      by_cases h2 : (c.bindingsList.all fun s => rb.contains s) = true
      · have e1 : List.filter (fun c => c.bindingsList.all fun s => lb.contains s) (c :: rest)
            = List.filter (fun c => c.bindingsList.all fun s => lb.contains s) rest := by
          rw [List.filter_cons, if_neg (by rw [h1]; simp)]
        have e2 : List.filter (fun c =>
              !(c.bindingsList.all fun s => lb.contains s)
                && (c.bindingsList.all fun s => rb.contains s)) (c :: rest)
            = c :: List.filter (fun c =>
              !(c.bindingsList.all fun s => lb.contains s)
                && (c.bindingsList.all fun s => rb.contains s)) rest := by
          rw [List.filter_cons, if_pos (by rw [h1, h2]; rfl)]
        have e3 : List.filter (fun c =>
              !(c.bindingsList.all fun s => lb.contains s)
                && !(c.bindingsList.all fun s => rb.contains s)) (c :: rest)
            = List.filter (fun c =>
              !(c.bindingsList.all fun s => lb.contains s)
                && !(c.bindingsList.all fun s => rb.contains s)) rest := by
          rw [List.filter_cons, if_neg (by rw [h1, h2]; simp)]
        rw [RelAlgebra.pushS, if_neg (by rw [h1]; simp), if_pos h2,
          pushS_spec lb rb lk rk elim rest, e1, e2, e3]
        rfl
      · rw [Bool.not_eq_true] at h2
        have e1 : List.filter (fun c => c.bindingsList.all fun s => lb.contains s) (c :: rest)
            = List.filter (fun c => c.bindingsList.all fun s => lb.contains s) rest := by
          rw [List.filter_cons, if_neg (by rw [h1]; simp)]
        have e2 : List.filter (fun c =>
              !(c.bindingsList.all fun s => lb.contains s)
                && (c.bindingsList.all fun s => rb.contains s)) (c :: rest)
            = List.filter (fun c =>
              !(c.bindingsList.all fun s => lb.contains s)
                && (c.bindingsList.all fun s => rb.contains s)) rest := by
          rw [List.filter_cons, if_neg (by rw [h2]; simp)]
        have e3 : List.filter (fun c =>
              !(c.bindingsList.all fun s => lb.contains s)
                && !(c.bindingsList.all fun s => rb.contains s)) (c :: rest)
            = c :: List.filter (fun c =>
              !(c.bindingsList.all fun s => lb.contains s)
                && !(c.bindingsList.all fun s => rb.contains s)) rest := by
          rw [List.filter_cons, if_pos (by rw [h1, h2]; rfl)]
        rw [RelAlgebra.pushS, if_neg (by rw [h1]; simp), if_neg (by rw [h2]; simp),
          pushS_spec lb rb lk rk elim rest, e1, e2, e3, List.append_assoc,
          List.singleton_append]

/-- C4 (amended): when a Filter is constructed atop an InnerJoin the
predicate splits into conjuncts, classified in order: every conjunct whose
free variables are a subset of the left child's pre-elimination bindings is
pushed into the left child — including a conjunct with no free variables,
which fits both sides but goes only left; every remaining conjunct whose
free variables are a subset of the right child's pre-elimination bindings is
pushed into the right child; the conjuncts fitting neither side form the
predicate list of a residual Filter node above the join, which is created
exactly when that list is non-empty. -/
theorem c4_filter_pushdown (l r : RelAlgebra) (lk rk elim : List String) (f : Expr) :
    RelAlgebra.filter (.Join l r lk rk elim) f
      = (let lb := l.bindings_before_eliminate
         let rb := r.bindings_before_eliminate
         let conjs := f.to_conjunction
         let lefts := conjs.filter fun c =>
            c.bindingsList.all fun s => lb.contains s
         let rights := conjs.filter fun c =>
            !(c.bindingsList.all fun s => lb.contains s)
              && (c.bindingsList.all fun s => rb.contains s)
         let rem := conjs.filter fun c =>
            !(c.bindingsList.all fun s => lb.contains s)
              && !(c.bindingsList.all fun s => rb.contains s)
         let joined := RelAlgebra.Join (lefts.foldl RelAlgebra.filter l)
            (rights.foldl RelAlgebra.filter r) lk rk elim
         if rem.isEmpty then joined else .Filter joined rem []) := by
  show (RelAlgebra.filterS (.Join l r lk rk elim) f).val = _
  rw [RelAlgebra.filterS]
  rw [pushS_spec l.bindings_before_eliminate r.bindings_before_eliminate lk rk elim
    f.to_conjunction (l.joinCount + r.joinCount) l r rfl []]
  rw [List.nil_append]

/-- C4 (counterexample): a conjunct with no free variables has its
variables a subset of the right child's pre-elimination bindings, yet the
construction pushes it only into the left child: the result's right child
is the unchanged right scan, while pushing into the right child (what
`filter` on the scan does) would have extended its filter list. -/
theorem c4_counterexample :
    RelAlgebra.filter
        (.Join (.TempStore ["x"] 0 []) (.TempStore ["y"] 1 []) [] [] [])
        (Expr.atom [])
      = .Join (.TempStore ["x"] 0 [Expr.atom []]) (.TempStore ["y"] 1 []) [] [] []
    ∧ ((Expr.atom []).bindingsList.all fun s =>
        (RelAlgebra.TempStore ["y"] 1 []).bindings_before_eliminate.contains s) = true
    ∧ RelAlgebra.filter (.TempStore ["y"] 1 []) (Expr.atom [])
        ≠ .TempStore ["y"] 1 [] := by
  refine ⟨?_, ?_, ?_⟩
  · simp [RelAlgebra.filter, RelAlgebra.filterS, RelAlgebra.pushS, Expr.to_conjunction,
      Expr.bindingsList]
  · simp [Expr.bindingsList]
  · intro h
    simp [RelAlgebra.filter, RelAlgebra.filterS] at h

/-- The per-tuple conjunction evaluation of `FilteredRA::iter`
(ra.rs:221-229): the compiled predicates run in order over the tuple;
`false` drops the tuple, an error aborts it, all-true passes.  Compiled
predicate bytecode is abstracted as `Tuple → Except Err Bool`. -/
def evalPreds : List (Tuple → Except Err Bool) → Tuple → Except Err Bool
  | [], _ => .ok true
  | bc :: rest, t =>
    match bc t with
    | .error e => .error e
    | .ok false => .ok false
    | .ok true => evalPreds rest t

/-- The `FilteredRA::iter` (ra.rs:209-236) on the list model: each ok element
runs through the predicate list, dropped on `false`, replaced by the error
on failure, and emitted with elimination applied when all predicates hold;
upstream errors pass through. -/
def FilteredRA.iter (filters_bytecodes : List (Tuple → Except Err Bool))
    (eliminate_indices : List Nat)
    (input : List (Except Err Tuple)) : List (Except Err Tuple) :=
  input.filterMap fun x =>
    match x with
    | .error e => some (.error e)
    | .ok t =>
      match evalPreds filters_bytecodes t with
      | .error e => some (.error e)
      | .ok false => none
      | .ok true => some (.ok (eliminate_from_tuple t eliminate_indices))

/-- Modelled from the spec: the compiled conjunction of two predicates
(`data/expr.rs`, outside the sources) evaluates the first conjunct and
short-circuits on `false` or error before evaluating the second. -/
def andBytecode (p q : Tuple → Except Err Bool) : Tuple → Except Err Bool := fun t =>
  match p t with
  | .error e => .error e
  | .ok false => .ok false
  | .ok true => q t

/-- C5: constructing a Filter over an existing Filter node yields a single
Filter node whose predicate list is the original list with the new
predicate appended (no nesting); and the stream of a Filter holding the two
compiled predicates `[q, p]` equals the stream of a Filter holding the
single conjunction `q ∧ p` over the same child stream. -/
theorem c5_filter_fusion (parent : RelAlgebra) (pred : List Expr) (elim : List String)
    (f : Expr) (q p : Tuple → Except Err Bool) (eliminate_indices : List Nat)
    (input : List (Except Err Tuple)) :
    RelAlgebra.filter (.Filter parent pred elim) f = .Filter parent (pred ++ [f]) elim
    ∧ FilteredRA.iter [q, p] eliminate_indices input
        = FilteredRA.iter [andBytecode q p] eliminate_indices input := by
  constructor
  · simp [RelAlgebra.filter, RelAlgebra.filterS]
  · unfold FilteredRA.iter
    induction input with
    | nil => rfl
    | cons x rest ih =>
      rw [List.filterMap_cons, List.filterMap_cons, ih]
      cases x with
      | error e => rfl
      | ok t =>
        have hpair : evalPreds [q, p] t = evalPreds [andBytecode q p] t := by
          simp only [evalPreds, andBytecode]
          cases hq : q t with
          | error e => rfl
          | ok b =>
            cases b with
            | false => rfl
            | true =>
              cases hp : p t with
              | error e => rfl
              | ok c => cases c <;> rfl
        congr 1
        dsimp only
        rw [hpair]

/-- Modelled from the spec: `DataValue::get_slice` (`data/value.rs`,
outside the sources), as multi-unification uses it — the list payload when
the value is a `List`, nothing otherwise. -/
def DataValue.get_slice : DataValue → Option (List DataValue)
  | .L xs => some xs
  | _ => none

/-- The `UnificationRA::iter` in multi mode (ra.rs:126-153): evaluate the
compiled expression on each input tuple; a non-list value fails the stream
with `BadSpreadUnification`; a list of n values replicates the tuple n
times, appending each element and applying elimination after the append.
Upstream errors pass through. -/
def UnificationRA.multi_iter (expr_bytecode : Tuple → Except Err DataValue)
    (eliminate_indices : List Nat)
    (input : List (Except Err Tuple)) : List (Except Err Tuple) :=
  input.flatMap fun x =>
    match x with
    | .error e => [.error e]
    | .ok tuple =>
      match expr_bytecode tuple with
      | .error e => [.error e]
      | .ok result_list =>
        match result_list.get_slice with
        | none => [.error .badSpreadUnification]
        | some results =>
          results.map fun result =>
            .ok (eliminate_from_tuple (tuple ++ [result]) eliminate_indices)

/-- C6: in multi-mode unification, an input tuple whose expression value is
a list of n elements contributes exactly n output tuples — the tuple
extended with each element in list order, elimination applied after the
append, so n = 0 contributes nothing; a non-list value makes the stream
fail with `BadSpreadUnification` at that position. -/
theorem c6_multi_unification (bc : Tuple → Except Err DataValue)
    (elim : List Nat) (input : List (Except Err Tuple)) (t : Tuple) :
    (∀ vs, bc t = .ok (.L vs) →
      UnificationRA.multi_iter bc elim (.ok t :: input)
        = (vs.map fun v => .ok (eliminate_from_tuple (t ++ [v]) elim))
            ++ UnificationRA.multi_iter bc elim input)
    ∧ (∀ v, bc t = .ok v → v.get_slice = none →
      UnificationRA.multi_iter bc elim (.ok t :: input)
        = .error .badSpreadUnification :: UnificationRA.multi_iter bc elim input) := by
  constructor
  · intro vs h
    simp [UnificationRA.multi_iter, h, DataValue.get_slice]
  · intro v h hs
    simp [UnificationRA.multi_iter, h, hs]

/-- Witness for C6 at the spec's S4 scenario shape: the expression returns
`[10, 20]` on the lone input tuple `(1)`, producing exactly the two
extended tuples. -/
theorem c6_multi_unification_witness :
    UnificationRA.multi_iter (fun _ => .ok (.L [.I 10, .I 20])) [] [.ok [DataValue.I 1]]
      = (([.I 10, .I 20] : List DataValue).map fun v =>
          .ok (eliminate_from_tuple ([DataValue.I 1] ++ [v]) []))
          ++ UnificationRA.multi_iter (fun _ => .ok (.L [.I 10, .I 20])) [] [] :=
  (c6_multi_unification (fun _ => .ok (.L [.I 10, .I 20])) [] [] [DataValue.I 1]).1
    [.I 10, .I 20] rfl

/-- The cache-building loop of the materialized join (ra.rs:1953-1968):
iterate the right stream in order, project each row with the join columns
first, and insert into a `BTreeSet`; the first error aborts. -/
def materializeRightGo (right_store_indices : List Nat) :
    List (Except Err Tuple) → List Tuple → Except Err (List Tuple)
  | [], cache => .ok cache
  | .error e :: _, _ => .error e
  | .ok tuple :: rest, cache =>
      materializeRightGo right_store_indices rest
        (btreeInsertTuple (proj right_store_indices tuple) cache)

/-- Materializing the right side into the sorted key-first cache. -/
def materializeRight (right_store_indices : List Nat)
    (right_iter : List (Except Err Tuple)) : Except Err (List Tuple) :=
  materializeRightGo right_store_indices right_iter []

/-- One left tuple's emissions (`build_mat_range_iter` plus
`CachedMaterializedIterator::advance_right`, ra.rs:1998-2062): binary
search of the left-key prefix in the sorted deduplicated cache lands the
cursor at the lower bound — the run of cache rows below the prefix, here
`dropWhile` — and the cursor advances while rows start with the prefix,
emitting the left tuple extended with the cached row's columns restored to
declared order through `right_invert_indices`, with elimination applied. -/
def matEmitFor (materialized : List Tuple)
    (left_join_indices right_invert_indices : List Nat)
    (eliminate_indices : List Nat) (left_cache : Tuple) : List (Except Err Tuple) :=
  let pfx := proj left_join_indices left_cache
  ((materialized.dropWhile fun m => DataValue.listLtB m pfx).takeWhile
      fun m => pfx.isPrefixOf m).map
    fun m =>
      .ok (eliminate_from_tuple (left_cache ++ proj right_invert_indices m)
        eliminate_indices)

/-- The remainder of the output stream (`CachedMaterializedIterator::next_inner`,
ra.rs:2012-2045): each subsequent ok left tuple emits its matches; a left
error is yielded in place, after which pulling continues. -/
def matOutput (materialized : List Tuple) (ljis rinv elim : List Nat) :
    List (Except Err Tuple) → List (Except Err Tuple)
  | [] => []
  | .error e :: rest => .error e :: matOutput materialized ljis rinv elim rest
  | .ok t :: rest =>
      matEmitFor materialized ljis rinv elim t
        ++ matOutput materialized ljis rinv elim rest

/-- The `InnerJoin::materialized_join` (ra.rs:1918-1984): pull the first left
tuple — an empty left returns the empty stream without touching the right,
and a first-pull error propagates; compute the key-first projection order
`right_store_indices` and its inverse permutation; materialize the right
side (an error there propagates from the call, before any output); then
stream the per-left-tuple matches. -/
def InnerJoin.materialized_join (left_join_indices right_join_indices : List Nat)
    (right_bindings_len : Nat) (eliminate_indices : List Nat)
    (left_iter right_iter : List (Except Err Tuple)) :
    Except Err (List (Except Err Tuple)) :=
  match left_iter with
  | [] => .ok []
  | .error e :: _ => .error e
  | .ok left_cache :: left_rest =>
    let right_store_indices := right_join_indices
        ++ ((List.range right_bindings_len).filter fun i =>
              !right_join_indices.contains i)
    let right_invert_indices :=
      (right_store_indices.enum.mergeSort fun a b => a.2 ≤ b.2).map Prod.fst
    match materializeRight right_store_indices right_iter with
    | .error e => .error e
    | .ok cached_data =>
      .ok (matEmitFor cached_data left_join_indices right_invert_indices
            eliminate_indices left_cache
          ++ matOutput cached_data left_join_indices right_invert_indices
            eliminate_indices left_rest)

theorem materializeRightGo_error (idxs : List Nat) (e : Err) :
    (pre : List (Except Err Tuple)) →
    (∀ x ∈ pre, ∃ u, x = Except.ok u) →
    ∀ (post : List (Except Err Tuple)) (cache : List Tuple),
    materializeRightGo idxs (pre ++ .error e :: post) cache = .error e
  | [], _, _, _ => rfl
  | x :: rest, h, post, cache => by
    obtain ⟨u, hu⟩ := h x (List.mem_cons_self x rest)
    subst hu
    rw [List.cons_append]
    exact materializeRightGo_error idxs e rest
      (fun y hy => h y (List.mem_cons_of_mem _ hy)) post
      (btreeInsertTuple (proj idxs u) cache)

/-- C7: when the left stream is empty, the materialized join emits nothing
and the right operand is never iterated or materialized — the result is
`ok []` for every right stream; and an error produced while materializing
the right side (the first error element of the right stream) is returned
from the call itself, before the first output tuple. -/
theorem c7_materialized_join_early_exit (ljis rjis : List Nat) (rlen : Nat)
    (elim : List Nat) :
    (∀ right_iter, InnerJoin.materialized_join ljis rjis rlen elim [] right_iter
        = .ok [])
    ∧ (∀ (t : Tuple) (lrest pre post : List (Except Err Tuple)) (e : Err),
        (∀ x ∈ pre, ∃ u, x = Except.ok u) →
        InnerJoin.materialized_join ljis rjis rlen elim (.ok t :: lrest)
            (pre ++ .error e :: post) = .error e) := by
  constructor
  · intro right_iter
    rfl
  · intro t lrest pre post e hpre
    simp only [InnerJoin.materialized_join, materializeRight]
    rw [materializeRightGo_error _ e pre hpre post []]

/-- Witness for C7: a singleton ok left stream with a right stream whose
second element errors — the join call returns that error. -/
theorem c7_materialized_join_witness :
    InnerJoin.materialized_join [0] [0] 1 [] [.ok [DataValue.I 1]]
        ([.ok [DataValue.I 2]] ++ .error (.other "storage") :: [])
      = .error (.other "storage") :=
  (c7_materialized_join_early_exit [0] [0] 1 []).2 [DataValue.I 1] []
    [.ok [DataValue.I 2]] [] (.other "storage")
    (fun x hx => by
      rw [List.mem_singleton] at hx
      exact ⟨[DataValue.I 2], hx⟩)

/-- The `RelAlgebra::relation` (ra.rs:395-428): without a validity timestamp,
always build a plain Stored node; with one, require the last key column's
typing to be non-nullable `Validity`, else fail with
`InvalidTimeTravelScanning`.  The Rust code reads `keys.last().unwrap()`;
the embedding uses a default that never equals the validity typing, and the
theorem carries the non-empty-keys hypothesis under which they coincide. -/
def RelAlgebra.relation (bindings : List String) (storage : RelationHandle)
    (validity : Option Int) : Except Err RelAlgebra :=
  match validity with
  | none => .ok (.Stored bindings storage [])
  | some vld =>
    if (storage.metadata.keys.getLastD ⟨⟨.OtherCT 0, true⟩⟩).typing
        ≠ ({ coltype := .Validity, nullable := false } : NullableColType) then
      .error (.invalidTimeTravelScanning storage.name)
    else
      .ok (.StoredWithValidity bindings storage [] vld)

/-- C8: constructing a scan without a validity timestamp always succeeds
with a plain Stored node; constructing with one succeeds with a
StoredWithValidity node exactly when the relation's last key column has
(non-nullable) type Validity, and otherwise fails with
`InvalidTimeTravelScanning`. -/
theorem c8_relation_construction (bindings : List String) (storage : RelationHandle)
    (vld : Int) (hkeys : storage.metadata.keys ≠ []) :
    RelAlgebra.relation bindings storage none = .ok (.Stored bindings storage [])
    ∧ ((storage.metadata.keys.getLast hkeys).typing
          = { coltype := .Validity, nullable := false } →
        RelAlgebra.relation bindings storage (some vld)
          = .ok (.StoredWithValidity bindings storage [] vld))
    ∧ ((storage.metadata.keys.getLast hkeys).typing
          ≠ { coltype := .Validity, nullable := false } →
        RelAlgebra.relation bindings storage (some vld)
          = .error (.invalidTimeTravelScanning storage.name)) := by
  have hl : storage.metadata.keys.getLastD (⟨⟨.OtherCT 0, true⟩⟩ : ColumnDef)
      = storage.metadata.keys.getLast hkeys := by
    rw [List.getLastD_eq_getLast?, List.getLast?_eq_getLast _ hkeys]
    rfl
  refine ⟨rfl, ?_, ?_⟩
  · intro h
    unfold RelAlgebra.relation
    rw [hl]
    show (if (storage.metadata.keys.getLast hkeys).typing
        ≠ ({ coltype := .Validity, nullable := false } : NullableColType) then
        (Except.error (Err.invalidTimeTravelScanning storage.name) : Except Err RelAlgebra)
      else .ok (.StoredWithValidity bindings storage [] vld)) = _
    rw [if_neg (fun hc => hc h)]
  · intro h
    unfold RelAlgebra.relation
    rw [hl]
    show (if (storage.metadata.keys.getLast hkeys).typing
        ≠ ({ coltype := .Validity, nullable := false } : NullableColType) then
        (Except.error (Err.invalidTimeTravelScanning storage.name) : Except Err RelAlgebra)
      else .ok (.StoredWithValidity bindings storage [] vld)) = _
    rw [if_pos h]

/-- Witness for C8: a handle whose single key column is non-nullable
Validity constructs a StoredWithValidity node. -/
theorem c8_relation_construction_witness :
    RelAlgebra.relation ["k"]
        ⟨"rel", ⟨[⟨⟨.Validity, false⟩⟩], []⟩⟩ (some 7)
      = .ok (.StoredWithValidity ["k"] ⟨"rel", ⟨[⟨⟨.Validity, false⟩⟩], []⟩⟩ [] 7) :=
  (c8_relation_construction ["k"] ⟨"rel", ⟨[⟨⟨.Validity, false⟩⟩], []⟩⟩ 7
    (by simp)).2.1 rfl

/-- The `NamedRows`: headers, rows, and the next frame of the result chain
that Return builds (runtime layer, outside the sources). -/
inductive NamedRows where
  | mk : List String → List (List DataValue) → Option NamedRows → NamedRows

/-- The `NamedRows::default()`: no headers, no rows, no next frame. -/
def NamedRows.defaultRows : NamedRows := .mk [] [] none

/-- The rows of a result. -/
def NamedRows.rows : NamedRows → List (List DataValue)
  | .mk _ rows _ => rows

/-- Replace the `next` frame (the `nr.next = current` step of Return). -/
def NamedRows.withNext : NamedRows → Option NamedRows → NamedRows
  | .mk h r _, nxt => .mk h r nxt

/-- The temp-relation environment the imperative layer mutates: a map from
relation name to an opaque relation identifier. -/
abbrev TempState := List (String × Nat)

/-- Modelled from the spec: `SessionTx::rename_temp_relation`
(`runtime/relation.rs`, outside the sources) — the spec's "atomic three-way
rename of temp relations" is built from single renames that move the
binding of `old` to the name `new_`, failing when `old` is absent. -/
def rename_temp_relation (old new_ : String) (st : TempState) : Except Err TempState :=
  match st.lookup old with
  | none => .error (.other "renaming a non-existent temp relation")
  | some v => .ok ((st.filter fun p => p.1 != old) ++ [(new_, v)])

/-- Modelled from the spec: `DataValue::get_bool` (`data/value.rs`, outside
the sources) — the payload when the value is a boolean, nothing otherwise. -/
def DataValue.get_bool : DataValue → Option Bool
  | .B b => some b
  | _ => none

/-- The row-inspection part of `Db::execute_imperative_condition`
(imperative.rs:58-69), applied to the rows of the resolved query result:
no first row, or an empty first row, is `false`; otherwise the last column
of the first row is coerced by `op_to_bool` (`data/functions.rs`, outside
the sources, passed in abstractly) and the result must be a boolean, else
the call fails with `PredicateTypeError` carrying the original value. -/
def execute_imperative_condition
    (op_to_bool : DataValue → Except Err DataValue)
    (rows : List (List DataValue)) : Except Err Bool :=
  match rows.head? with
  | none => .ok false
  | some row =>
    if row.isEmpty then .ok false
    else
      match op_to_bool (row.getLastD DataValue.Null) with
      | .error e => .error e
      | .ok v =>
        match v.get_bool with
        | some b => .ok b
        | none => .error (.predicateTypeError (row.getLastD DataValue.Null))

/-- C9: the imperative condition evaluator returns false when the result
has no rows or its first row is empty; otherwise it returns the boolean
coercion of the first row's last column; and it fails with a predicate
typing error when the coerced value is not a boolean (and propagates the
coercion's own failure when the value is not coercible at all). -/
theorem c9_condition_semantics (op_to_bool : DataValue → Except Err DataValue)
    (row : List DataValue) (rest : List (List DataValue)) :
    execute_imperative_condition op_to_bool [] = .ok false
    ∧ (row = [] → execute_imperative_condition op_to_bool (row :: rest) = .ok false)
    ∧ (∀ b, row ≠ [] → op_to_bool (row.getLastD DataValue.Null) = .ok (.B b) →
        execute_imperative_condition op_to_bool (row :: rest) = .ok b)
    ∧ (∀ v, row ≠ [] → op_to_bool (row.getLastD DataValue.Null) = .ok v →
        v.get_bool = none →
        execute_imperative_condition op_to_bool (row :: rest)
          = .error (.predicateTypeError (row.getLastD DataValue.Null)))
    ∧ (∀ e, row ≠ [] → op_to_bool (row.getLastD DataValue.Null) = .error e →
        execute_imperative_condition op_to_bool (row :: rest) = .error e) := by
  refine ⟨rfl, ?_, ?_, ?_, ?_⟩
  · intro h
    subst h
    rfl
  · intro b hne hop
    rw [List.getLastD_eq_getLast?] at hop
    simp [execute_imperative_condition, List.isEmpty_iff, hne, hop, DataValue.get_bool]
  · intro v hne hop hnb
    rw [List.getLastD_eq_getLast?] at hop
    simp [execute_imperative_condition, List.isEmpty_iff, hne, hop, hnb]
  · intro e hne hop
    rw [List.getLastD_eq_getLast?] at hop
    simp [execute_imperative_condition, List.isEmpty_iff, hne, hop]

/-- Witness for C9: a single row whose last column coerces to `true`. -/
theorem c9_condition_semantics_witness :
    execute_imperative_condition (fun v => .ok v) [[DataValue.B true]] = .ok true :=
  (c9_condition_semantics (fun v => .ok v) [DataValue.B true] []).2.2.1 true
    (by simp) rfl

/-- The imperative statement forms (`parse/imperative.rs`, outside the
sources; the variants are exactly those `execute_imperative_stmts` matches
in imperative.rs:85-236).  Programs and relation references are opaque
identifiers; a condition is a relation name (left) or a program (right);
`Return` carries a list of programs (left) or relation names (right). -/
inductive ImperativeStmt where
  | Break : Option String → ImperativeStmt
  | Continue : Option String → ImperativeStmt
  | Return : List (Sum Nat String) → ImperativeStmt
  | TempDebug : String → ImperativeStmt
  | Program : Nat → ImperativeStmt
  | IgnoreErrorProgram : Nat → ImperativeStmt
  | If : Sum String Nat → Bool → List ImperativeStmt → List ImperativeStmt → ImperativeStmt
  | Loop : Option String → List ImperativeStmt → ImperativeStmt
  | TempSwap : String → String → ImperativeStmt

/-- The `ControlCode` (imperative.rs:27-31). -/
inductive ControlCode where
  | Termination : NamedRows → ControlCode
  | Break : Option String → ControlCode
  | Continue : Option String → ControlCode

/-- The collaborator operations the statement executor calls into —
single-program execution (mutating the temp environment), reading a temp
relation as rows, and the boolean coercion used by conditions.  All live
outside the sources and are abstract here. -/
structure ImperativeEnv where
  runProg : Nat → TempState → Except Err (NamedRows × TempState)
  getRel : String → TempState → Except Err NamedRows
  opToBool : DataValue → Except Err DataValue

/-- The condition resolution of `Db::execute_imperative_condition`
(imperative.rs:44-57): a relation name reads the relation's rows, a
program runs it; either way the rows then go through the row inspection. -/
def run_condition (env : ImperativeEnv) (cond : Sum String Nat) (st : TempState) :
    Except Err (Bool × TempState) :=
  match cond with
  | .inl rel =>
    match env.getRel rel st with
    | .error e => .error e
    | .ok nr =>
      match execute_imperative_condition env.opToBool nr.rows with
      | .error e => .error e
      | .ok b => .ok (b, st)
  | .inr p =>
    match env.runProg p st with
    | .error e => .error e
    | .ok (nr, st') =>
      match execute_imperative_condition env.opToBool nr.rows with
      | .error e => .error e
      | .ok b => .ok (b, st')

/-- The result-frame chain a Return statement builds (imperative.rs:96-115):
the entries are evaluated in reverse order, each new frame pointing at the
chain built so far. -/
def build_return_chain (env : ImperativeEnv) :
    List (Sum Nat String) → TempState → Option NamedRows →
    Except Err (Option NamedRows × TempState)
  | [], st, current => .ok (current, st)
  | nxt :: rest, st, current =>
    match (match nxt with
           | .inl prog => env.runProg prog st
           | .inr rel =>
             match env.getRel rel st with
             | .error e => .error e
             | .ok nr => .ok (nr, st)) with
    | .error e => .error e
    | .ok (nr, st') =>
      build_return_chain env rest st' (some (nr.withNext current))

mutual
/-- The `Db::execute_imperative_stmts` (imperative.rs:72-239).  `ret`
accumulates the last executed statement's result; `fuel` bounds loop
iterations (the Rust `loop` is unbounded; every property proved here is
independent of the bound); poison checks are omitted (cancellation only).
Break/Continue/Return hand a control code to the caller; TempDebug prints
and resets the accumulator; Program and IgnoreErrorProgram run a program
(the latter downgrading failure to a synthetic `status = FAILED` row); If
resolves its condition, applies negation, and runs the selected branch,
propagating control codes; Loop iterates its body, a matching break ending
the loop; TempSwap performs the three renames and then breaks out of the
statement loop with the default result. -/
def execute_imperative_stmts (env : ImperativeEnv) (fuel : Nat)
    (ps : List ImperativeStmt) (st : TempState) (ret : NamedRows) :
    Except Err ((Sum NamedRows ControlCode) × TempState) :=
  match ps with
  | [] => .ok (.inl ret, st)
  | p :: rest =>
    match p with
    | .Break target => .ok (.inr (.Break target), st)
    | .Continue target => .ok (.inr (.Continue target), st)
    | .Return returns =>
      if returns.isEmpty then
        .ok (.inr (.Termination NamedRows.defaultRows), st)
      else
        match build_return_chain env returns.reverse st none with
        | .error e => .error e
        | .ok (current, st') =>
          .ok (.inr (.Termination (current.getD NamedRows.defaultRows)), st')
    | .TempDebug temp =>
      match env.getRel temp st with
      | .error e => .error e
      | .ok _ => execute_imperative_stmts env fuel rest st NamedRows.defaultRows
    | .Program prog =>
      match env.runProg prog st with
      | .error e => .error e
      | .ok (nr, st') => execute_imperative_stmts env fuel rest st' nr
    | .IgnoreErrorProgram prog =>
      match env.runProg prog st with
      | .error _ =>
        execute_imperative_stmts env fuel rest st
          (.mk ["status"] [[DataValue.S "FAILED"]] none)
      | .ok (nr, st') => execute_imperative_stmts env fuel rest st' nr
    | .If condition negated then_branch else_branch =>
      match run_condition env condition st with
      | .error e => .error e
      | .ok (cond_val0, st') =>
        if (if negated then !cond_val0 else cond_val0) then
          match execute_imperative_stmts env fuel then_branch st'
              NamedRows.defaultRows with
          | .error e => .error e
          | .ok (.inl rows, st'') => execute_imperative_stmts env fuel rest st'' rows
          | .ok (.inr ctrl, st'') => .ok (.inr ctrl, st'')
        else
          match execute_imperative_stmts env fuel else_branch st'
              NamedRows.defaultRows with
          | .error e => .error e
          | .ok (.inl rows, st'') => execute_imperative_stmts env fuel rest st'' rows
          | .ok (.inr ctrl, st'') => .ok (.inr ctrl, st'')
    | .Loop label body =>
      match execute_imperative_loop env fuel label body st with
      | .error e => .error e
      | .ok (none, st') =>
        execute_imperative_stmts env fuel rest st' NamedRows.defaultRows
      | .ok (some ctrl, st') => .ok (.inr ctrl, st')
    | .TempSwap left right =>
      match rename_temp_relation left "_*temp*" st with
      | .error e => .error e
      | .ok st1 =>
        match rename_temp_relation right left st1 with
        | .error e => .error e
        | .ok st2 =>
          match rename_temp_relation "_*temp*" right st2 with
          | .error e => .error e
          | .ok st3 => .ok (.inl NamedRows.defaultRows, st3)
termination_by (fuel, sizeOf ps)

/-- The `loop` of the Loop statement (imperative.rs:183-219): run the body;
a plain result loops again, Termination propagates, a matching break ends
the loop (`none`), a matching continue loops again, and non-matching
break/continue propagate to the enclosing loop. -/
def execute_imperative_loop (env : ImperativeEnv) (fuel : Nat)
    (label : Option String) (body : List ImperativeStmt) (st : TempState) :
    Except Err (Option ControlCode × TempState) :=
  match fuel with
  | 0 => .error (.other "loop fuel exhausted")
  | fuel' + 1 =>
    match execute_imperative_stmts env fuel' body st NamedRows.defaultRows with
    | .error e => .error e
    | .ok (.inl _, st') => execute_imperative_loop env fuel' label body st'
    | .ok (.inr ctrl, st') =>
      match ctrl with
      | .Termination r => .ok (some (.Termination r), st')
      | .Break blabel =>
        if blabel.isNone || blabel == label then .ok (none, st')
        else .ok (some (.Break blabel), st')
      | .Continue clabel =>
        if clabel.isNone || clabel == label then
          execute_imperative_loop env fuel' label body st'
        else .ok (some (.Continue clabel), st')
termination_by (fuel, sizeOf body + 1)
end

/-- C10: executing a temp-relation swap performs the three renames — left
to the reserved temporary name, right to left, temporary to right — and
then exits the enclosing statement block: the remaining statements and the
accumulated result never influence the outcome, and the block's result is
the empty default `NamedRows`. -/
theorem c10_temp_swap_exits_block (env : ImperativeEnv) (fuel : Nat)
    (left right : String) (rest : List ImperativeStmt) (st : TempState)
    (ret : NamedRows) :
    execute_imperative_stmts env fuel (.TempSwap left right :: rest) st ret
      = (match rename_temp_relation left "_*temp*" st with
         | .error e => .error e
         | .ok st1 =>
           match rename_temp_relation right left st1 with
           | .error e => .error e
           | .ok st2 =>
             match rename_temp_relation "_*temp*" right st2 with
             | .error e => .error e
             | .ok st3 => .ok (.inl NamedRows.defaultRows, st3)) := by
  simp only [execute_imperative_stmts]
